import Mathlib

/-!
Verification of the tinylocalize translation core (`src/magic-translate.tsx`
and the unnamed UI source file, which duplicates the same module-level store).

The embedding models the module-level mutable state (`globalTranslations`,
`translationMetadata`, `globalLang`, `globalKeys`, plus the persisted
localStorage blobs) as an explicit `TState` record, and the operations
(`internalT`, `loadProductionTranslations`, `initializeTranslations`,
`setCurrentLang`, `removeLanguage`, module construction) as pure functions
over it.  JavaScript plain objects are modelled as association lists with
unique keys; property *reads* (`m[k]`, `k in m`) follow the prototype
chain up to `Object.prototype`, whose members (`toString`, `constructor`,
the `__proto__` accessor, ...) are modelled explicitly, while property
writes, `delete` and `Object.keys` are own-property operations as in JS.
`Set` is an insertion-ordered duplicate-free list, and JSON numbers that
appear as translation values are integers.
-/

namespace TinyLocalize

/-- Association-list lookup, modelling JS own-property access `m[k]`
(`none` plays the role of `undefined`). -/
def lookupF {α : Type} : List (String × α) → String → Option α
  | [], _ => none
  | e :: es, k => if e.1 = k then some e.2 else lookupF es k

/-- `k in m` for own properties / `m[k] !== undefined`. -/
def containsKey {α : Type} (m : List (String × α)) (k : String) : Bool :=
  (lookupF m k).isSome

/-- JS property assignment `m[k] = v`: updates the existing entry in place
(keeping its position) or appends a fresh one. -/
def setKey {α : Type} (m : List (String × α)) (k : String) (v : α) :
    List (String × α) :=
  if containsKey m k then m.map (fun e => if e.1 = k then (k, v) else e)
  else m ++ [(k, v)]

/-- A JSON-ish translation value, as stored inside a language tree:
`Branch` nodes are `obj`, leaves are strings (or, rarely, numbers /
booleans / null coming from the JSON files). -/
inductive TValue where
  | str : String → TValue
  | num : Int → TValue
  | boolV : Bool → TValue
  | null : TValue
  | obj : List (String × TValue) → TValue

/-- A per-language tree: the top level of `globalTranslations[lang]`. -/
abbrev Obj := List (String × TValue)

/-- `globalTranslations`: language code to tree. -/
abbrev TransMap := List (String × Obj)

/-- Completion status, from `updateTranslationMetadata`. -/
inductive Status where
  | complete | missing | needsReview
deriving DecidableEq

/-- One `translationMetadata[lang][key]` record. -/
structure MetaRec where
  lastModified : Nat
  characterCount : Nat
  status : Status
deriving DecidableEq

/-- `translationMetadata`: language code to (key to record). -/
abbrev MetaMap := List (String × List (String × MetaRec))

/-- The module-level mutable state of `magic-translate.tsx`, together with
the localStorage slots it persists to (`magic-translations`,
`magic-translation-metadata`, `magic-lang`). -/
structure TState where
  trans : TransMap
  meta : MetaMap
  lang : String
  keys : List String
  storedTrans : TransMap
  storedMeta : MetaMap
  storedLang : String

/-- `globalKeys.add key` (JS `Set.add`: insertion order, no duplicates). -/
def addKey (ks : List String) (k : String) : List String :=
  if k ∈ ks then ks else ks ++ [k]

/-- The function-valued own members of `Object.prototype`, inherited by
every plain object (object literals, JSON.parse results). -/
def protoFunNames : List String :=
  ["constructor", "hasOwnProperty", "isPrototypeOf", "propertyIsEnumerable",
   "toLocaleString", "toString", "valueOf",
   "__defineGetter__", "__defineSetter__", "__lookupGetter__",
   "__lookupSetter__"]

/-- `fn.toString()` for a native function named `name` (V8's rendering;
non-empty in every engine, which is all the claims rely on). -/
def nativeFunSource (name : String) : String :=
  "function " ++ name ++ "() \x7b [native code] \x7d"

/-- A value the resolver walk can be standing on: a value from the
translation data, `Object.prototype` itself (reached via the inherited
`__proto__` accessor), or an inherited native function (carrying the
function's name, for `toString`). -/
inductive JsVal where
  | tval : TValue → JsVal
  | protoObj : JsVal
  | nativeFun : String → JsVal

/-- Property read `obj[k]` on a plain object with own fields `fields`:
own property first, then `Object.prototype` (`__proto__` accessor gives
the prototype object, `constructor` the `Object` function, the other
members their native functions), else `undefined`. -/
def jsGet (fields : List (String × TValue)) (k : String) : Option JsVal :=
  match lookupF fields k with
  | some v => some (JsVal.tval v)
  | none =>
      if k = "__proto__" then some JsVal.protoObj
      else if k = "constructor" then some (JsVal.nativeFun "Object")
      else if protoFunNames.contains k then some (JsVal.nativeFun k)
      else none

/-- Property read `Object.prototype[k]`: its own members; its `__proto__`
accessor yields `null` (`Object.getPrototypeOf(Object.prototype)`). -/
def protoGet (k : String) : Option JsVal :=
  if k = "__proto__" then some (JsVal.tval TValue.null)
  else if k = "constructor" then some (JsVal.nativeFun "Object")
  else if protoFunNames.contains k then some (JsVal.nativeFun k)
  else none

/-- The initial read `globalTranslations[globalLang]`: the store is itself
a plain object, so an unknown language code can still hit an inherited
member (most notably `__proto__`, which yields `Object.prototype`). -/
def rootGet (trans : TransMap) (lang : String) : Option JsVal :=
  match lookupF trans lang with
  | some o => some (JsVal.tval (TValue.obj o))
  | none =>
      if lang = "__proto__" then some JsVal.protoObj
      else if lang = "constructor" then some (JsVal.nativeFun "Object")
      else if protoFunNames.contains lang then some (JsVal.nativeFun lang)
      else none

/-- The key-path walk of `internalT`: starting from
`globalTranslations[globalLang]`, descend one segment at a time; descent
requires the current value to be truthy, of type `'object'`, and to have
the segment as a key (`k in value`, which includes inherited members),
otherwise the value becomes `undefined` (`none`). -/
def walkPath : Option JsVal → List String → Option JsVal
  | v, [] => v
  | some (JsVal.tval (TValue.obj fields)), k :: rest =>
      match jsGet fields k with
      | some v => walkPath (some v) rest
      | none => none
  | some JsVal.protoObj, k :: rest =>
      match protoGet k with
      | some v => walkPath (some v) rest
      | none => none
  | _, _ :: _ => none

/-- Accumulator loop for `key.split('.')`. -/
def splitKeyAux : List Char → List Char → List String
  | [], acc => [String.mk acc]
  | c :: rest, acc =>
      if c = '.' then String.mk acc :: splitKeyAux rest []
      else splitKeyAux rest (acc ++ [c])

/-- `key.split('.')` (JS semantics: splitting the empty string yields
`[""]`, and empty segments are kept). -/
def splitKey (key : String) : List String := splitKeyAux key.data []

/-- The miss fallback literal `TODO: Translate "<key>"`. -/
def todoFallback (key : String) : String :=
  "TODO: Translate \"" ++ key ++ "\""

/-- The type-mismatch fallback literal `[Object: <key>]`. -/
def objFallback (key : String) : String :=
  "[Object: " ++ key ++ "]"

/-- A value of the `vars` record (`Record<string, string | number>`). -/
inductive VarVal where
  | s : String → VarVal
  | n : Int → VarVal

/-- `v.toString()` for a `vars` entry. -/
def varToString : VarVal → String
  | VarVal.s v => v
  | VarVal.n v => toString v

/-- `\w` of the interpolation regex (ASCII word character). -/
def isWordC (c : Char) : Bool :=
  ('a' ≤ c && c ≤ 'z') || ('A' ≤ c && c ≤ 'Z') || ('0' ≤ c && c ≤ '9') || c = '_'

/-- The characters of the full text matched by `\{\{(\w+)\}\}` for
capture `w`. -/
def matchChars (w : String) : List Char :=
  '{' :: '{' :: (w.data ++ ['}', '}'])

/-- The full text matched by `\{\{(\w+)\}\}` for capture `w`. -/
def matchText (w : String) : String := String.mk (matchChars w)

/-- Whether the regex `\{\{(\w+)\}\}` matches at the start of `cs`: two
braces, a maximal non-empty word-character run (the capture), two closing
braces.  Returns the capture and the rest after the match. -/
def braceMatch (cs : List Char) : Option (String × List Char) :=
  match cs with
  | '{' :: '{' :: rest =>
      (match rest.takeWhile isWordC, rest.dropWhile isWordC with
        | [], _ => none
        | _ :: _, '}' :: '}' :: tail => some (String.mk (rest.takeWhile isWordC), tail)
        | _ :: _, _ => none)
  | _ => none

/-- The scan of `String.prototype.replace` with the global regex
`/\{\{(\w+)\}\}/g`: left-to-right, non-overlapping; on a match at the
current position the callback result `repl w` is emitted and the scan
resumes after the match, otherwise the scan advances one character.
Fuel-indexed for structural recursion; fuel at least the length of the
input is always enough, since every step consumes at least one
character. -/
def glueScanF (repl : String → String) : Nat → List Char → List Char
  | 0, cs => cs
  | _ + 1, [] => []
  | f + 1, c :: rest =>
      match braceMatch (c :: rest) with
      | some (w, tail) => (repl w).data ++ glueScanF repl f tail
      | none => c :: glueScanF repl f rest

/-- `vars[varName]?.toString()`: own entries first; a name absent from
`vars` can still find an inherited `Object.prototype` member, whose
string conversion is `[object Object]` for the `__proto__` accessor's
result and the function source for the native functions.  `none` is
`undefined` (the optional chain short-circuits). -/
def jsVarToString (vars : List (String × VarVal)) (w : String) :
    Option String :=
  match lookupF vars w with
  | some v => some (varToString v)
  | none =>
      if w = "__proto__" then some "[object Object]"
      else if w = "constructor" then some (nativeFunSource "Object")
      else if protoFunNames.contains w then some (nativeFunSource w)
      else none

/-- `value.replace(/\{\{(\w+)\}\}/g, (match, varName) =>
vars[varName]?.toString() || match)`: a looked-up entry (own or
inherited) replaces the match unless its string conversion is empty
(falsy), in which case the matched text itself is returned. -/
def jsReplaceVars (vars : List (String × VarVal)) (s : String) : String :=
  String.mk (glueScanF
    (fun w =>
      match jsVarToString vars w with
      | some t => if t = "" then matchText w else t
      | none => matchText w)
    s.data.length s.data)

/-- Spec-level substitution over the same `{{name}}` occurrence structure:
an occurrence is replaced by `f name` when that is `some`, and left as
literal text when it is `none`. -/
def specSubst (f : String → Option String) (s : String) : String :=
  String.mk (glueScanF (fun w => (f w).getD (matchText w)) s.data.length s.data)

/-- The substitution the code effectively performs: a name applies when
its lookup through `vars` (own entries, then the inherited
`Object.prototype` members) yields a non-empty string conversion. -/
def effSubst (vars : List (String × VarVal)) (w : String) : Option String :=
  match jsVarToString vars w with
  | some t => if t = "" then none else some t
  | none => none

/-- `internalT(key, vars)`: registers the key, walks the active language's
tree, and produces the resolved string (returning the updated state).
Mirrors the source: miss / null gives the TODO fallback, an object (a
Branch, or `Object.prototype` itself) gives the `[Object: ...]` fallback,
a string with non-empty `vars` is interpolated, and otherwise
`value?.toString() || TODO` is returned (so an empty string leaf falls
back, and an inherited native function yields its source text). -/
def internalT (st : TState) (key : String) (vars : List (String × VarVal)) :
    String × TState :=
  let st' := { st with keys := addKey st.keys key }
  let v := walkPath (rootGet st.trans st.lang) (splitKey key)
  match v with
  | none => (todoFallback key, st')
  | some (JsVal.tval TValue.null) => (todoFallback key, st')
  | some (JsVal.tval (TValue.obj _)) => (objFallback key, st')
  | some JsVal.protoObj => (objFallback key, st')
  | some (JsVal.tval (TValue.str s)) =>
      if vars.isEmpty then (if s = "" then todoFallback key else s, st')
      else (jsReplaceVars vars s, st')
  | some (JsVal.tval (TValue.num n)) => (toString n, st')
  | some (JsVal.tval (TValue.boolV b)) => (if b then "true" else "false", st')
  | some (JsVal.nativeFun name) => (nativeFunSource name, st')

/-- Whether `internalT` hits the `console.warn` branch: exactly when the
walk reaches a value of type `'object'` (a Branch, or `Object.prototype`)
at the full path. -/
def internalTWarns (st : TState) (key : String) : Bool :=
  match walkPath (rootGet st.trans st.lang) (splitKey key) with
  | some (JsVal.tval (TValue.obj _)) => true
  | some JsVal.protoObj => true
  | _ => false

/-- JS object spread `{ ...b, ...o }` on plain objects: keys of `b` in
their order (values overridden by `o` where colliding), followed by the
keys of `o` that are not in `b`. -/
def spread2 {α : Type} (b o : List (String × α)) : List (String × α) :=
  b.map (fun e => (e.1, (lookupF o e.1).getD e.2)) ++
    o.filter (fun e => ! containsKey b e.1)

/-- The fixed language list of `loadProductionTranslations`. -/
def langsToTry : List String := ["en", "fr", "es", "de"]

/-- One iteration of the fetch loop of `loadProductionTranslations`
(dev mode, `MAGIC_CONFIG.enableUI = true` as configured in the source):
on a successful fetch of `/locales/<lang>.json`,
`globalTranslations[lang] = { ...prodTranslations, ...globalTranslations[lang] }`;
a failed fetch leaves the language untouched.  The base source is modelled
as `fetch : String → Option Obj` (`none` = missing/failing document). -/
def loadStep (fetch : String → Option Obj) (g : TransMap) (lang : String) :
    TransMap :=
  match fetch lang with
  | some prod => setKey g lang (spread2 prod ((lookupF g lang).getD []))
  | none => g

/-- The whole fetch loop of `loadProductionTranslations` over a language
list. -/
def loadList (fetch : String → Option Obj) (langs : List String)
    (g : TransMap) : TransMap :=
  langs.foldl (loadStep fetch) g

/-- Whether `Object.keys(g[l] || {}).length > 0` fails, i.e. the language's
tree is absent or empty. -/
def langEmpty (g : TransMap) (l : String) : Bool :=
  ((lookupF g l).getD []).isEmpty

/-- `languagesToRemove` of `initializeTranslations`: the present languages
whose tree is empty (i.e. not in `loadedLanguages`). -/
def toRemoveList (L : TransMap) : List String :=
  (L.map Prod.fst).filter (fun l => langEmpty L l)

/-- The garbage-collection deletions applied to `globalTranslations`. -/
def gcKeep (L : TransMap) : TransMap :=
  L.filter (fun e => ! langEmpty L e.1)

/-- The garbage-collection deletions applied to `translationMetadata`
(only languages present in `globalTranslations` with an empty tree are
deleted). -/
def gcMeta (L : TransMap) (md : MetaMap) : MetaMap :=
  md.filter (fun e => ! (containsKey L e.1 && langEmpty L e.1))

/-- `reconcile`: the body of `initializeTranslations` — run
`loadProductionTranslations`, compute `loadedLanguages` (languages with a
non-empty tree), garbage-collect every other present language from both
`globalTranslations` and `translationMetadata`, and, when anything was
removed, persist both blobs to localStorage (dev mode). -/
def reconcile (fetch : String → Option Obj) (st : TState) : TState :=
  let L := loadList fetch langsToTry st.trans
  if (toRemoveList L).isEmpty then
    { st with trans := gcKeep L, meta := gcMeta L st.meta }
  else
    { st with
      trans := gcKeep L
      meta := gcMeta L st.meta
      storedTrans := gcKeep L
      storedMeta := gcMeta L st.meta }

/-- The synchronous effect of `setCurrentLang(lang)`: assign `globalLang`,
persist `magic-lang`, and (dev mode) merge the persisted
`magic-translations` back into memory with
`globalTranslations[k] = { ...globalTranslations[k], ...stored[k] }` for
every persisted language.  The `loadProductionTranslations()` call it also
makes is asynchronous (its fetches resolve later) and is not part of this
synchronous step.  Note there is no validation of `lang` whatsoever. -/
def setCurrentLangSync (st : TState) (lang : String) : TState :=
  let newTrans := st.storedTrans.foldl
    (fun tr e => setKey tr e.1 (spread2 ((lookupF tr e.1).getD []) e.2))
    st.trans
  { st with lang := lang, storedLang := lang, trans := newTrans }

/-- `removeLanguage(langToRemove)` from the unnamed source file, with the
`confirm()` dialog's answer as an explicit argument: refuse (no-op, plus
an alert) when at most one language remains; otherwise, once confirmed,
delete the language from `globalTranslations` (the metadata is not
touched), reassign via `setCurrentLang` to the first remaining language
when the active one was removed, and persist both blobs. -/
def removeLanguage (st : TState) (code : String) (confirmed : Bool) : TState :=
  if st.trans.length ≤ 1 then st
  else if confirmed then
    let st1 := { st with trans := st.trans.filter (fun e => ! (e.1 == code)) }
    let st2 :=
      if st.lang = code then
        match st1.trans.map Prod.fst with
        | [] => st1
        | l0 :: _ => setCurrentLangSync st1 l0
      else st1
    { st2 with storedTrans := st2.trans, storedMeta := st2.meta }
  else st

/-- A JSON document, for modelling the platform's `JSON.parse`. -/
inductive Json where
  | null : Json
  | boolV : Bool → Json
  | num : String → Json
  | str : String → Json
  | arr : List Json → Json
  | obj : List (String × Json) → Json

/-- JSON whitespace. -/
def isWsC (c : Char) : Bool :=
  c = ' ' || c = '\t' || c = '\n' || c = '\r'

/-- Skip JSON whitespace. -/
def skipWs (cs : List Char) : List Char := cs.dropWhile isWsC

/-- ASCII decimal digit. -/
def isDigitC (c : Char) : Bool := '0' ≤ c && c ≤ '9'

/-- Hexadecimal digit value (by code point: `0`-`9`, `a`-`f`, `A`-`F`). -/
def hexDigitValue (c : Char) : Option Nat :=
  let n := c.toNat
  if 48 ≤ n && n ≤ 57 then some (n - 48)
  else if 97 ≤ n && n ≤ 102 then some (n - 87)
  else if 65 ≤ n && n ≤ 70 then some (n - 55)
  else none

/-- JSON string body (after the opening quote): returns the decoded
characters and the rest after the closing quote.  Handles the standard
escapes and `\uXXXX`; raw control characters are rejected. -/
def strChars : List Char → Option (List Char × List Char)
  | [] => none
  | '"' :: rest => some ([], rest)
  | '\\' :: 'u' :: a :: b :: c :: d :: rest => do
      let ha ← hexDigitValue a
      let hb ← hexDigitValue b
      let hc ← hexDigitValue c
      let hd ← hexDigitValue d
      let (cs, r) ← strChars rest
      pure (Char.ofNat (((ha * 16 + hb) * 16 + hc) * 16 + hd) :: cs, r)
  | '\\' :: e :: rest => do
      let ec ← match e with
        | '"' => some '"'
        | '\\' => some '\\'
        | '/' => some '/'
        | 'b' => some (Char.ofNat 8)
        | 'f' => some (Char.ofNat 12)
        | 'n' => some '\n'
        | 'r' => some '\r'
        | 't' => some '\t'
        | _ => none
      let (cs, r) ← strChars rest
      pure (ec :: cs, r)
  | c :: rest =>
      if c.toNat < 32 then none
      else do
        let (cs, r) ← strChars rest
        pure (c :: cs, r)

/-- JSON number lexeme: optional minus, integer part without a leading
zero (unless it is exactly zero), optional fraction, optional exponent. -/
def numLex (cs : List Char) : Option (List Char × List Char) :=
  let (sign, cs1) :=
    match cs with
    | '-' :: r => ([('-' : Char)], r)
    | _ => ([], cs)
  let intPart := cs1.takeWhile isDigitC
  let cs2 := cs1.dropWhile isDigitC
  let intOk :=
    match intPart with
    | [] => false
    | ['0'] => true
    | '0' :: _ => false
    | _ => true
  if ¬ intOk then none
  else
    let (frac, cs3) :=
      match cs2 with
      | '.' :: r =>
          match r.takeWhile isDigitC with
          | [] => ([('!' : Char)], r)
          | ds => ('.' :: ds, r.dropWhile isDigitC)
      | _ => ([], cs2)
    if frac = [('!' : Char)] then none
    else
      let (ex, cs4) :=
        match cs3 with
        | e :: r =>
            if e = 'e' || e = 'E' then
              let (es, r1) :=
                match r with
                | '+' :: r1 => ([e, '+'], r1)
                | '-' :: r1 => ([e, '-'], r1)
                | _ => ([e], r)
              match r1.takeWhile isDigitC with
              | [] => ([('!' : Char)], r1)
              | ds => (es ++ ds, r1.dropWhile isDigitC)
            else ([], cs3)
        | _ => ([], cs3)
      if ex = [('!' : Char)] then none
      else some (sign ++ intPart ++ frac ++ ex, cs4)

mutual

/-- Parse one JSON value (fuel-indexed recursive descent). -/
def parseVal : Nat → List Char → Option (Json × List Char)
  | 0, _ => none
  | f + 1, cs =>
      match skipWs cs with
      | '{' :: rest =>
          (match skipWs rest with
            | '}' :: r2 => some (Json.obj [], r2)
            | r2 => (parseObjTail f r2).map (fun p => (Json.obj p.1, p.2)))
      | '[' :: rest =>
          (match skipWs rest with
            | ']' :: r2 => some (Json.arr [], r2)
            | r2 => (parseArrTail f r2).map (fun p => (Json.arr p.1, p.2)))
      | '"' :: rest => (strChars rest).map (fun p => (Json.str (String.mk p.1), p.2))
      | 't' :: 'r' :: 'u' :: 'e' :: rest => some (Json.boolV true, rest)
      | 'f' :: 'a' :: 'l' :: 's' :: 'e' :: rest => some (Json.boolV false, rest)
      | 'n' :: 'u' :: 'l' :: 'l' :: rest => some (Json.null, rest)
      | other => (numLex other).map (fun p => (Json.num (String.mk p.1), p.2))

/-- Parse the members of a non-empty JSON array, including the closing
bracket. -/
def parseArrTail : Nat → List Char → Option (List Json × List Char)
  | 0, _ => none
  | f + 1, cs => do
      let (v, r1) ← parseVal f cs
      match skipWs r1 with
      | ',' :: r2 => (parseArrTail f r2).map (fun p => (v :: p.1, p.2))
      | ']' :: r2 => some ([v], r2)
      | _ => none

/-- Parse the members of a non-empty JSON object, including the closing
brace. -/
def parseObjTail : Nat → List Char → Option (List (String × Json) × List Char)
  | 0, _ => none
  | f + 1, cs =>
      match skipWs cs with
      | '"' :: rest => do
          let (k, r1) ← strChars rest
          match skipWs r1 with
          | ':' :: r2 => do
              let (v, r3) ← parseVal f r2
              match skipWs r3 with
              | ',' :: r4 =>
                  (parseObjTail f r4).map (fun p => ((String.mk k, v) :: p.1, p.2))
              | '}' :: r4 => some ([(String.mk k, v)], r4)
              | _ => none
          | _ => none
      | _ => none

end

/-- The platform's `JSON.parse`, modelled as a total function returning
`none` where `JSON.parse` throws a `SyntaxError`. -/
def jsonParse (s : String) : Option Json :=
  match parseVal (2 * s.length + 2) s.data with
  | some (v, rest) => if (skipWs rest).isEmpty then some v else none
  | none => none

/-- Module construction of the `globalTranslations` blob (dev mode):
`JSON.parse(localStorage.getItem('magic-translations') || '{}')`, with no
surrounding try/catch — a parse failure propagates (`none`).  The `||`
default applies to every falsy value: both a missing blob (`null`) and a
persisted empty-string blob fall back to `'{}'`. -/
def initStoredBlob (stored : Option String) : Option Json :=
  jsonParse
    (match stored with
      | none => "\x7b\x7d"
      | some s => if s = "" then "\x7b\x7d" else s)

/-! ### Association-list lemmas -/

section AListLemmas

variable {α : Type}

theorem lookupF_append (xs ys : List (String × α)) (k : String) :
    lookupF (xs ++ ys) k = (lookupF xs k).or (lookupF ys k) := by
  induction xs with
  | nil => simp [lookupF]
  | cons e es ih =>
      by_cases h : e.1 = k <;> simp [lookupF, h, ih]

theorem lookupF_none_iff (m : List (String × α)) (k : String) :
    lookupF m k = none ↔ k ∉ m.map Prod.fst := by
  induction m with
  | nil => simp [lookupF]
  | cons e es ih =>
      by_cases h : e.1 = k
      · simp [lookupF, h]
      · simp only [lookupF, h, if_neg, ih, List.map_cons, List.mem_cons,
          not_false_iff]
        constructor
        · intro hk hmem
          rcases hmem with hk1 | hk2
          · exact h hk1.symm
          · exact hk hk2
        · intro hk hk2
          exact hk (Or.inr hk2)

theorem containsKey_of_mem {m : List (String × α)} {e : String × α}
    (h : e ∈ m) : containsKey m e.1 = true := by
  induction m with
  | nil => simp at h
  | cons a as ih =>
      rcases List.mem_cons.mp h with rfl | h'
      · simp [containsKey, lookupF]
      · by_cases ha : a.1 = e.1 <;>
          simp_all [containsKey, lookupF, Option.isSome]

theorem lookupF_isSome_of_mem_keys {m : List (String × α)} {k : String}
    (h : k ∈ m.map Prod.fst) : ∃ v, lookupF m k = some v := by
  rcases hv : lookupF m k with _ | v
  · exact absurd ((lookupF_none_iff m k).mp hv) (not_not_intro h)
  · exact ⟨v, rfl⟩

theorem lookupF_eq_of_mem_nodup {m : List (String × α)} {e : String × α}
    (hnd : (m.map Prod.fst).Nodup) (h : e ∈ m) : lookupF m e.1 = some e.2 := by
  induction m with
  | nil => simp at h
  | cons a as ih =>
      simp only [List.map_cons, List.nodup_cons] at hnd
      rcases List.mem_cons.mp h with rfl | h'
      · simp [lookupF]
      · have hne : a.1 ≠ e.1 := by
          intro heq
          exact hnd.1 (heq ▸ List.mem_map_of_mem Prod.fst h')
        simp [lookupF, hne, ih hnd.2 h']

theorem lookupF_mapReplace_self (m : List (String × α)) (k : String) (v : α)
    (hc : containsKey m k = true) :
    lookupF (m.map (fun e => if e.1 = k then (k, v) else e)) k = some v := by
  induction m with
  | nil => simp [containsKey, lookupF] at hc
  | cons e es ih =>
      by_cases h : e.1 = k
      · simp [lookupF, h]
      · have hc' : containsKey es k = true := by
          simpa [containsKey, lookupF, h] using hc
        simp [lookupF, h, ih hc']

theorem lookupF_mapReplace_ne (m : List (String × α)) (k k' : String) (v : α)
    (h : k' ≠ k) :
    lookupF (m.map (fun e => if e.1 = k then (k, v) else e)) k' =
      lookupF m k' := by
  induction m with
  | nil => simp
  | cons e es ih =>
      by_cases he : e.1 = k
      · simp [lookupF, he, Ne.symm h, ih]
      · by_cases he' : e.1 = k' <;> simp [lookupF, he, he', ih, h]

theorem lookupF_setKey_self (m : List (String × α)) (k : String) (v : α) :
    lookupF (setKey m k v) k = some v := by
  unfold setKey
  rcases hc : containsKey m k
  · have hl : lookupF m k = none := by
      unfold containsKey at hc
      rcases hl : lookupF m k with _ | w
      · rfl
      · simp [hl] at hc
    simp [lookupF_append, hl, lookupF]
  · simp [lookupF_mapReplace_self m k v hc]

theorem lookupF_setKey_ne (m : List (String × α)) (k k' : String) (v : α)
    (h : k' ≠ k) : lookupF (setKey m k v) k' = lookupF m k' := by
  unfold setKey
  rcases hc : containsKey m k
  · simp [lookupF_append, lookupF, Ne.symm h]
  · simp [lookupF_mapReplace_ne m k k' v h]

theorem setKey_eq_self {m : List (String × α)} {k : String} {v : α}
    (hnd : (m.map Prod.fst).Nodup) (h : lookupF m k = some v) :
    setKey m k v = m := by
  have hc : containsKey m k = true := by simp [containsKey, h]
  unfold setKey
  simp only [hc, if_true]
  have : ∀ e ∈ m, (fun e : String × α => if e.1 = k then (k, v) else e) e = id e := by
    intro e he
    by_cases hek : e.1 = k
    · have := lookupF_eq_of_mem_nodup hnd he
      rw [hek, h] at this
      obtain rfl : v = e.2 := by injection this
      show (if e.1 = k then (k, e.2) else e) = id e
      rw [if_pos hek, ← hek]
      rfl
    · simp [hek]
  rw [List.map_congr_left this, List.map_id]

theorem keys_setKey_of_containsKey (m : List (String × α)) (k : String) (v : α)
    (hc : containsKey m k = true) :
    (setKey m k v).map Prod.fst = m.map Prod.fst := by
  unfold setKey
  simp only [hc, if_true, List.map_map]
  apply List.map_congr_left
  intro e _
  by_cases h : e.1 = k <;> simp [h]

theorem keys_setKey_of_not_containsKey (m : List (String × α)) (k : String)
    (v : α) (hc : containsKey m k = false) :
    (setKey m k v).map Prod.fst = m.map Prod.fst ++ [k] := by
  unfold setKey
  simp [hc]

theorem nodup_keys_setKey (m : List (String × α)) (k : String) (v : α)
    (hnd : (m.map Prod.fst).Nodup) :
    ((setKey m k v).map Prod.fst).Nodup := by
  rcases hc : containsKey m k
  · rw [keys_setKey_of_not_containsKey m k v hc]
    have hk : k ∉ m.map Prod.fst := by
      apply (lookupF_none_iff m k).mp
      unfold containsKey at hc
      rcases h : lookupF m k with _ | w
      · rfl
      · simp [h, Option.isSome] at hc
    refine List.Nodup.append hnd (List.nodup_singleton k) ?_
    intro a ha hb
    rw [List.mem_singleton.mp hb] at ha
    exact hk ha
  · rwa [keys_setKey_of_containsKey m k v hc]

end AListLemmas

/-! ### Spread-merge lemmas -/

section SpreadLemmas

variable {α : Type}

theorem lookupF_filter_keyPred (m : List (String × α)) (q : String → Bool)
    (k : String) :
    lookupF (m.filter (fun e => q e.1)) k =
      if q k then lookupF m k else none := by
  induction m with
  | nil => simp [lookupF]
  | cons e es ih =>
      by_cases hq : q e.1
      · by_cases hek : e.1 = k
        · subst hek
          simp [List.filter_cons, hq, lookupF]
        · simp [List.filter_cons, hq, lookupF, hek, ih]
      · by_cases hek : e.1 = k
        · subst hek
          simp [List.filter_cons, hq, lookupF, ih]
        · simp [List.filter_cons, hq, lookupF, hek, ih]

theorem lookupF_spread_mapPart (b o : List (String × α)) (k : String) :
    lookupF (b.map (fun e => (e.1, (lookupF o e.1).getD e.2))) k =
      (lookupF b k).map (fun v => (lookupF o k).getD v) := by
  induction b with
  | nil => simp [lookupF]
  | cons e es ih =>
      by_cases hek : e.1 = k
      · subst hek
        simp [lookupF]
      · simp [lookupF, hek, ih]

theorem lookupF_spread2 (b o : List (String × α)) (k : String) :
    lookupF (spread2 b o) k = (lookupF o k).or (lookupF b k) := by
  unfold spread2
  rw [lookupF_append, lookupF_spread_mapPart]
  have hfilter :
      lookupF (o.filter (fun e => ! containsKey b e.1)) k =
        if ! containsKey b k then lookupF o k else none :=
    lookupF_filter_keyPred o (fun x => ! containsKey b x) k
  rcases hb : lookupF b k with _ | v
  · have hcb : containsKey b k = false := by simp [containsKey, hb]
    rw [hfilter]
    simp [hcb]
  · have hcb : containsKey b k = true := by simp [containsKey, hb]
    rw [hfilter]
    rcases ho : lookupF o k with _ | w <;> simp [hcb, Option.or]

theorem spread2_eq_nil_iff (b o : List (String × α)) :
    spread2 b o = [] ↔ b = [] ∧ o = [] := by
  constructor
  · intro h
    unfold spread2 at h
    rcases List.append_eq_nil.mp h with ⟨h1, h2⟩
    have hb : b = [] := by
      cases b with
      | nil => rfl
      | cons e es => simp at h1
    subst hb
    refine ⟨rfl, ?_⟩
    cases o with
    | nil => rfl
    | cons e es =>
        simp [containsKey, lookupF, List.filter_cons] at h2
  · rintro ⟨rfl, rfl⟩
    rfl

theorem spread2_idem {b : List (String × α)} (o : List (String × α))
    (hnd : (b.map Prod.fst).Nodup) : spread2 b (spread2 b o) = spread2 b o := by
  unfold spread2
  congr 1
  · apply List.map_congr_left
    intro e he
    have hbe : lookupF b e.1 = some e.2 := lookupF_eq_of_mem_nodup hnd he
    have : lookupF (spread2 b o) e.1 = (lookupF o e.1).or (lookupF b e.1) :=
      lookupF_spread2 b o e.1
    rw [hbe] at this
    rcases ho : lookupF o e.1 with _ | w <;>
      simp [spread2, ho, Option.or] at this ⊢ <;> simp [this]
  · rw [List.filter_append]
    have h1 : (b.map (fun e => (e.1, (lookupF o e.1).getD e.2))).filter
        (fun e => ! containsKey b e.1) = [] := by
      apply List.filter_eq_nil_iff.mpr
      intro e he
      rcases List.mem_map.mp he with ⟨a, ha, rfl⟩
      simp [containsKey_of_mem ha]
    rw [h1, List.filter_filter]
    simp

end SpreadLemmas

/-! ### Interpolation-scan lemmas -/

theorem braceMatch_eq_some {cs : List Char} {w : String} {tail : List Char}
    (h : braceMatch cs = some (w, tail)) : cs = matchChars w ++ tail := by
  unfold braceMatch at h
  split at h
  · rename_i rest
    split at h
    · exact absurd h (by simp)
    · rename_i c cs' tl heqTake heqDrop
      have h' := Option.some.inj h
      obtain ⟨rfl, rfl⟩ : String.mk (rest.takeWhile isWordC) = w ∧ tl = tail :=
        ⟨congrArg Prod.fst h', congrArg Prod.snd h'⟩
      have hsplit : rest.takeWhile isWordC ++ rest.dropWhile isWordC = rest :=
        List.takeWhile_append_dropWhile isWordC rest
      conv_lhs => rw [← hsplit, heqDrop]
      simp [matchChars]
    · exact absurd h (by simp)
  · exact absurd h (by simp)

theorem glueScanF_congr {f g : String → String} (h : ∀ w, f w = g w) :
    ∀ (n : Nat) (cs : List Char), glueScanF f n cs = glueScanF g n cs := by
  intro n
  induction n with
  | zero => intro cs; rfl
  | succ m ih =>
      intro cs
      cases cs with
      | nil => rfl
      | cons c rest =>
          simp only [glueScanF]
          cases hb : braceMatch (c :: rest) with
          | none => simp [ih]
          | some p =>
              obtain ⟨w, tail⟩ := p
              simp [h w, ih]

theorem glueScanF_matchText (n : Nat) :
    ∀ cs : List Char, glueScanF (fun w => matchText w) n cs = cs := by
  induction n with
  | zero => intro cs; rfl
  | succ m ih =>
      intro cs
      cases cs with
      | nil => rfl
      | cons c rest =>
          simp only [glueScanF]
          cases hb : braceMatch (c :: rest) with
          | none => simp [ih]
          | some p =>
              obtain ⟨w, tail⟩ := p
              have hshape := braceMatch_eq_some hb
              show (matchText w).data ++ glueScanF (fun w => matchText w) m tail
                  = c :: rest
              rw [ih tail, hshape]
              rfl

/-- A no-op substitution is the identity: every occurrence is put back
verbatim, and the remaining text is copied. -/
theorem specSubst_none (s : String) : specSubst (fun _ => none) s = s := by
  unfold specSubst
  have h : ∀ w, ((none : Option String)).getD (matchText w) = matchText w :=
    fun w => rfl
  rw [glueScanF_congr h, glueScanF_matchText]

/-- The interpolation the code performs equals spec-style substitution
under the effective substitution function (a `vars` entry applies only
when its string conversion is non-empty). -/
theorem jsReplaceVars_eq_specSubst (vars : List (String × VarVal)) (s : String) :
    jsReplaceVars vars s = specSubst (effSubst vars) s := by
  unfold jsReplaceVars specSubst
  congr 1
  apply glueScanF_congr
  intro w
  unfold effSubst
  cases h : jsVarToString vars w with
  | none => simp
  | some t => by_cases ht : t = "" <;> simp [ht]

/-- Walking from `undefined` (an absent language tree) misses for every
key path. -/
theorem walkPath_none (segs : List String) : walkPath none segs = none := by
  cases segs <;> rfl

/-- `key.split('.')` always yields at least one segment. -/
theorem splitKey_cons (key : String) : ∃ k0 r0, splitKey key = k0 :: r0 := by
  unfold splitKey
  generalize key.data = cs
  suffices h : ∀ (cs acc : List Char), ∃ k0 r0, splitKeyAux cs acc = k0 :: r0
    from h cs []
  intro cs
  induction cs with
  | nil => intro acc; exact ⟨String.mk acc, [], rfl⟩
  | cons c rest ih =>
      intro acc
      by_cases hc : c = '.'
      · exact ⟨String.mk acc, splitKeyAux rest [], by simp [splitKeyAux, hc]⟩
      · obtain ⟨k0, r0, h0⟩ := ih (acc ++ [c])
        exact ⟨k0, r0, by simp [splitKeyAux, hc, h0]⟩

/-- Walking from an inherited native function misses for every key path:
`typeof value === 'object'` fails at the first segment. -/
theorem walkPath_nativeFun (f : String) (key : String) :
    walkPath (some (JsVal.nativeFun f)) (splitKey key) = none := by
  obtain ⟨k0, r0, hsplit⟩ := splitKey_cons key
  rw [hsplit]
  rfl

/-! ### Example states for witnesses and counterexamples -/

/-- A state whose active language holds the single leaf
`greeting = "Hello"`. -/
def exLeafState : TState :=
  { trans := [("en", [("greeting", TValue.str "Hello")])]
    meta := [], lang := "en", keys := []
    storedTrans := [], storedMeta := [], storedLang := "en" }

/-- A state whose active language holds the single empty-string leaf
`a = ""`. -/
def exEmptyLeafState : TState :=
  { trans := [("en", [("a", TValue.str "")])]
    meta := [], lang := "en", keys := []
    storedTrans := [], storedMeta := [], storedLang := "en" }

/-- A state whose active language holds the leaf
`greeting = "Hi, {{name}}!"`. -/
def exVarState : TState :=
  { trans := [("en", [("greeting", TValue.str "Hi, \x7b\x7bname\x7d\x7d!")])]
    meta := [], lang := "en", keys := []
    storedTrans := [], storedMeta := [], storedLang := "en" }

/-- A state whose active language holds a Branch at `menu`. -/
def exBranchState : TState :=
  { trans := [("en", [("menu", TValue.obj [("title", TValue.str "T")])])]
    meta := [], lang := "en", keys := []
    storedTrans := [], storedMeta := [], storedLang := "en" }

/-- A state whose active language holds the leaf
`greeting = "{{constructor}}"`. -/
def exCtorState : TState :=
  { trans :=
      [("en", [("greeting", TValue.str "\x7b\x7bconstructor\x7d\x7d")])]
    meta := [], lang := "en", keys := []
    storedTrans := [], storedMeta := [], storedLang := "en" }

/-! ### Claims about the resolver -/

/-- Claim C1, as stated, is false on the code: the empty-string leaf `a`
resolves to the miss fallback `TODO: Translate "a"`, not to the stored
(empty) string, because of the falsy-string check in
`value?.toString() || ...`. -/
theorem c1_counterexample :
    walkPath (rootGet exEmptyLeafState.trans exEmptyLeafState.lang)
        (splitKey "a") = some (JsVal.tval (TValue.str ""))
      ∧ (internalT exEmptyLeafState "a" []).1 = todoFallback "a"
      ∧ todoFallback "a" ≠ "" :=
  ⟨rfl, rfl, by decide⟩

/-- Claim C1 (amended): for every key path whose resolution reaches a Leaf
holding a *non-empty* string, `resolve` with no interpolation variables
returns exactly that string, unchanged; an empty stored string instead
yields the miss fallback. -/
theorem c1_leaf_resolved_verbatim (st : TState) (key s : String)
    (h : walkPath (rootGet st.trans st.lang) (splitKey key) =
      some (JsVal.tval (TValue.str s)))
    (hs : s ≠ "") : (internalT st key []).1 = s := by
  simp only [internalT]
  rw [h]
  simp [hs]

theorem c1_witness : (internalT exLeafState "greeting" []).1 = "Hello" :=
  c1_leaf_resolved_verbatim exLeafState "greeting" "Hello" rfl (by decide)

/-- Claim C2, as stated, is false on the code: the key `toString` is
absent from the tree, yet the descent check `k in value` finds the
inherited `Object.prototype.toString`, so `resolve("toString")` returns
the function's source text via `value?.toString()`, not the TODO
sentinel. -/
theorem c2_counterexample :
    lookupF [("greeting", TValue.str "Hello")] "toString" = none
      ∧ (internalT exLeafState "toString" []).1 = nativeFunSource "toString"
      ∧ nativeFunSource "toString" ≠ todoFallback "toString" :=
  ⟨rfl, rfl, by decide⟩

/-- Claim C2 (amended): for every key path whose resolution misses even
through the prototype chain — some segment present neither in the tree
nor among `Object.prototype`'s members, or descent required through a
non-object — `resolve` returns exactly `TODO: Translate "<key>"` and the
key is in the registry afterwards.  Key paths whose segments collide with
`Object.prototype` member names (`toString`, `constructor`, `__proto__`,
...) can instead surface the inherited value. -/
theorem c2_missing_key_fallback_and_registered (st : TState) (key : String)
    (vars : List (String × VarVal))
    (h : walkPath (rootGet st.trans st.lang) (splitKey key) = none) :
    (internalT st key vars).1 = todoFallback key
      ∧ key ∈ (internalT st key vars).2.keys := by
  constructor
  · simp only [internalT]
    rw [h]
  · simp only [internalT]
    rw [h]
    simp only [addKey]
    by_cases hk : key ∈ st.keys <;> simp [hk]

theorem c2_witness :
    (internalT exLeafState "missing.key" []).1 = todoFallback "missing.key"
      ∧ "missing.key" ∈ (internalT exLeafState "missing.key" []).2.keys :=
  c2_missing_key_fallback_and_registered exLeafState "missing.key" [] rfl

/-- Claim C3: for every key path that reaches a Branch at the full path,
`resolve` emits the diagnostic warning and returns exactly
`[Object: <key>]` (a plain string; the structure itself is never
returned — in the embedding `internalT` produces a `String` in every
branch, mirroring the source's string-only returns). -/
theorem c3_branch_fallback_and_warning (st : TState) (key : String)
    (vars : List (String × VarVal)) (fields : List (String × TValue))
    (h : walkPath (rootGet st.trans st.lang) (splitKey key) =
      some (JsVal.tval (TValue.obj fields))) :
    (internalT st key vars).1 = objFallback key
      ∧ internalTWarns st key = true := by
  constructor
  · simp only [internalT]
    rw [h]
  · simp only [internalTWarns]
    rw [h]

theorem c3_witness :
    (internalT exBranchState "menu" []).1 = objFallback "menu"
      ∧ internalTWarns exBranchState "menu" = true :=
  c3_branch_fallback_and_warning exBranchState "menu" []
    [("title", TValue.str "T")] rfl

/-- Claim C4, as stated, is false on the code in both directions: the
variable `name` is present in `vars` with value `""`, yet `{{name}}` is
*not* replaced (the falsy check `vars[varName]?.toString() || match`
keeps the matched text); and `constructor` is *not* a key of `vars`, yet
`{{constructor}}` *is* replaced — `vars["constructor"]` finds the
inherited `Object` constructor, whose string conversion is non-empty. -/
theorem c4_counterexample :
    (internalT exVarState "greeting" [("name", VarVal.s "")]).1 =
        "Hi, \x7b\x7bname\x7d\x7d!"
      ∧ ("Hi, \x7b\x7bname\x7d\x7d!" : String) ≠ "Hi, !"
      ∧ (internalT exCtorState "greeting" [("name", VarVal.s "Sam")]).1 =
          nativeFunSource "Object"
      ∧ nativeFunSource "Object" ≠ "\x7b\x7bconstructor\x7d\x7d" :=
  ⟨rfl, by decide, rfl, by decide⟩

/-- Claim C4 (amended): with non-empty `vars`, interpolating a Leaf string
replaces every `{{name}}` occurrence whose lookup through `vars` — own
entries first, then the members inherited from `Object.prototype` —
yields a value with a *non-empty* string conversion, by that conversion,
and leaves every other occurrence (lookup `undefined`, or value
converting to the empty string) unmodified byte-for-byte — i.e. the
code's interpolation coincides with spec-style substitution under
`effSubst`. -/
theorem c4_interpolation_spec (st : TState) (key s : String)
    (vars : List (String × VarVal)) (hv : vars ≠ [])
    (h : walkPath (rootGet st.trans st.lang) (splitKey key) =
      some (JsVal.tval (TValue.str s))) :
    (internalT st key vars).1 = specSubst (effSubst vars) s := by
  simp only [internalT]
  rw [h]
  have hne : vars.isEmpty = false := by
    cases vars with
    | nil => exact absurd rfl hv
    | cons a l => rfl
  simp [hne, jsReplaceVars_eq_specSubst]

theorem c4_witness :
    (internalT exVarState "greeting" [("name", VarVal.s "Sam")]).1 =
      specSubst (effSubst [("name", VarVal.s "Sam")]) "Hi, \x7b\x7bname\x7d\x7d!" :=
  c4_interpolation_spec exVarState "greeting" "Hi, \x7b\x7bname\x7d\x7d!"
    [("name", VarVal.s "Sam")] (List.cons_ne_nil _ _) rfl

/-- Claim C5, as stated, is false on the code: on the empty-string Leaf the
skip path (empty `vars`) returns the miss fallback, whereas a no-op
substitution returns the empty string — the two paths are not
extensionally equal. -/
theorem c5_counterexample :
    (internalT exEmptyLeafState "a" []).1 ≠ specSubst (fun _ => none) "" := by
  decide

/-- Claim C5 (amended): on every *non-empty* Leaf string the skip path
(empty `vars`) agrees with a no-op substitution; on the empty string the
skip path returns the miss fallback instead. -/
theorem c5_empty_vars_noop_equiv (st : TState) (key s : String)
    (h : walkPath (rootGet st.trans st.lang) (splitKey key) =
      some (JsVal.tval (TValue.str s)))
    (hs : s ≠ "") :
    (internalT st key []).1 = specSubst (fun _ => none) s := by
  rw [specSubst_none]
  simp only [internalT]
  rw [h]
  simp [hs]

theorem c5_witness :
    (internalT exLeafState "greeting" []).1 = specSubst (fun _ => none) "Hello" :=
  c5_empty_vars_noop_equiv exLeafState "greeting" "Hello" rfl (by decide)

/-- Claim C10, as stated, is false on the code: `setCurrentLang` accepts
the unvalidated code `__proto__`, which has no tree in the store, yet
`globalTranslations["__proto__"]` yields `Object.prototype` through the
inherited accessor, and `resolve("toString")` then returns the native
function's source text, not the miss fallback. -/
theorem c10_counterexample :
    lookupF exLeafState.trans "__proto__" = none
      ∧ (internalT { exLeafState with lang := "__proto__" } "toString" []).1 =
          nativeFunSource "toString"
      ∧ nativeFunSource "toString" ≠ todoFallback "toString" :=
  ⟨rfl, rfl, by decide⟩

/-- Claim C10 (amended): `setCurrentLang` accepts any string without
validation, and when the active language has no tree in the store and is
not the inherited `__proto__` accessor name, `resolve` returns the miss
fallback for every key (other inherited names at the root are functions,
on which every descent fails); with active code `__proto__` the root is
`Object.prototype` and prototype members resolve instead.  The model is
total, mirroring the source paths, which cannot throw. -/
theorem c10_total_resolution (st : TState) (l key : String)
    (vars : List (String × VarVal)) :
    (setCurrentLangSync st l).lang = l
      ∧ (lookupF st.trans st.lang = none → st.lang ≠ "__proto__" →
          (internalT st key vars).1 = todoFallback key) := by
  constructor
  · rfl
  · intro h1 h2
    simp only [internalT]
    have hroot : rootGet st.trans st.lang = none ∨
        ∃ f, rootGet st.trans st.lang = some (JsVal.nativeFun f) := by
      unfold rootGet
      rw [h1]
      rw [if_neg h2]
      by_cases hc : st.lang = "constructor"
      · exact Or.inr ⟨"Object", by rw [if_pos hc]⟩
      · rw [if_neg hc]
        by_cases hp : protoFunNames.contains st.lang
        · exact Or.inr ⟨st.lang, by rw [if_pos hp]⟩
        · exact Or.inl (by rw [if_neg hp])
    rcases hroot with hr | ⟨f, hr⟩
    · rw [hr, walkPath_none]
    · rw [hr, walkPath_nativeFun]

theorem c10_witness :
    (setCurrentLangSync exLeafState "xx").lang = "xx"
      ∧ (internalT { exLeafState with lang := "zz" } "k" []).1 =
          todoFallback "k" :=
  ⟨(c10_total_resolution exLeafState "xx" "k" []).1,
    (c10_total_resolution { exLeafState with lang := "zz" } "zz" "k" []).2
      rfl (by decide)⟩

/-! ### Load-loop lemmas -/

theorem lookupF_loadStep_ne (fetch : String → Option Obj) (g : TransMap)
    (a l : String) (h : l ≠ a) :
    lookupF (loadStep fetch g a) l = lookupF g l := by
  unfold loadStep
  cases fetch a with
  | none => rfl
  | some p => exact lookupF_setKey_ne g a l _ h

theorem lookupF_loadList_notMem (fetch : String → Option Obj)
    (langs : List String) (g : TransMap) (l : String) (h : l ∉ langs) :
    lookupF (loadList fetch langs g) l = lookupF g l := by
  induction langs generalizing g with
  | nil => rfl
  | cons a ls ih =>
      simp only [loadList, List.foldl_cons]
      have hne : l ≠ a := fun heq => h (heq ▸ List.mem_cons_self a ls)
      have hls : l ∉ ls := fun hmem => h (List.mem_cons_of_mem a hmem)
      rw [show ls.foldl (loadStep fetch) (loadStep fetch g a) =
          loadList fetch ls (loadStep fetch g a) from rfl]
      rw [ih (loadStep fetch g a) hls, lookupF_loadStep_ne fetch g a l hne]

theorem lookupF_loadList_mem_some (fetch : String → Option Obj)
    (langs : List String) (g : TransMap) (l : String) (p : Obj)
    (hnd : langs.Nodup) (hmem : l ∈ langs) (hf : fetch l = some p) :
    lookupF (loadList fetch langs g) l =
      some (spread2 p ((lookupF g l).getD [])) := by
  induction langs generalizing g with
  | nil => simp at hmem
  | cons a ls ih =>
      simp only [List.nodup_cons] at hnd
      simp only [loadList, List.foldl_cons]
      rw [show ls.foldl (loadStep fetch) (loadStep fetch g a) =
          loadList fetch ls (loadStep fetch g a) from rfl]
      rcases List.mem_cons.mp hmem with rfl | hmem'
      · rw [lookupF_loadList_notMem fetch ls _ l hnd.1]
        unfold loadStep
        rw [hf]
        exact lookupF_setKey_self g l _
      · have hne : l ≠ a := fun heq => hnd.1 (heq ▸ hmem')
        rw [ih (loadStep fetch g a) hnd.2 hmem',
          lookupF_loadStep_ne fetch g a l hne]

theorem nodup_keys_loadList (fetch : String → Option Obj)
    (langs : List String) (g : TransMap)
    (hnd : (g.map Prod.fst).Nodup) :
    ((loadList fetch langs g).map Prod.fst).Nodup := by
  induction langs generalizing g with
  | nil => exact hnd
  | cons a ls ih =>
      simp only [loadList, List.foldl_cons]
      rw [show ls.foldl (loadStep fetch) (loadStep fetch g a) =
          loadList fetch ls (loadStep fetch g a) from rfl]
      apply ih
      unfold loadStep
      cases fetch a with
      | none => exact hnd
      | some p => exact nodup_keys_setKey g a _ hnd

/-- Claim C6: in override-enabled (dev) mode, for every successfully
fetched language the effective tree produced by
`loadProductionTranslations` is the shallow top-level spread
`{ ...base, ...override }`: looking up any top-level key yields the
override layer's entire subtree when present there, and otherwise the
base subtree unchanged (no recursion below the top level). -/
theorem c6_shallow_merge (fetch : String → Option Obj) (g : TransMap)
    (lang : String) (p : Obj) (h1 : lang ∈ langsToTry)
    (h2 : fetch lang = some p) :
    lookupF (loadList fetch langsToTry g) lang =
        some (spread2 p ((lookupF g lang).getD []))
      ∧ ∀ k, lookupF (spread2 p ((lookupF g lang).getD [])) k =
          (lookupF ((lookupF g lang).getD []) k).or (lookupF p k) :=
  ⟨lookupF_loadList_mem_some fetch langsToTry g lang p (by decide) h1 h2,
    fun k => lookupF_spread2 p ((lookupF g lang).getD []) k⟩

/-- A concrete base source for witnesses: only `en.json` exists. -/
def exFetch : String → Option Obj := fun l =>
  if l = "en" then some [("a", TValue.str "x"), ("b", TValue.str "y")]
  else none

/-- A concrete in-memory (override-bearing) translation map. -/
def exOverrides : TransMap :=
  [("en", [("b", TValue.str "z"), ("c", TValue.str "w")])]

theorem c6_witness :
    lookupF (loadList exFetch langsToTry exOverrides) "en" =
        some (spread2 [("a", TValue.str "x"), ("b", TValue.str "y")]
          ((lookupF exOverrides "en").getD []))
      ∧ lookupF (spread2 [("a", TValue.str "x"), ("b", TValue.str "y")]
            ((lookupF exOverrides "en").getD [])) "b" =
          (lookupF ((lookupF exOverrides "en").getD []) "b").or
            (lookupF [("a", TValue.str "x"), ("b", TValue.str "y")] "b") :=
  ⟨(c6_shallow_merge exFetch exOverrides "en" _ (by decide) rfl).1,
    (c6_shallow_merge exFetch exOverrides "en" _ (by decide) rfl).2 "b"⟩

/-! ### Reconcile-idempotence machinery -/

theorem optionOr_none {α : Type} (o : Option α) : o.or none = o := by
  cases o <;> rfl

theorem mem_keys_of_lookupF_some {α : Type} {m : List (String × α)}
    {k : String} {v : α} (h : lookupF m k = some v) : k ∈ m.map Prod.fst := by
  by_contra hk
  rw [(lookupF_none_iff m k).mpr hk] at h
  exact Option.noConfusion h

theorem lookupF_constNil_map (xs : List String) (k : String) :
    lookupF (xs.map (fun l => (l, ([] : Obj)))) k =
      if k ∈ xs then some [] else none := by
  induction xs with
  | nil => simp [lookupF]
  | cons a as ih =>
      by_cases h : a = k
      · subst h
        simp [lookupF]
      · simp [lookupF, h, ih, Ne.symm h]

theorem nodup_keys_filter {α : Type} (m : List (String × α))
    (p : String × α → Bool) (hnd : (m.map Prod.fst).Nodup) :
    ((m.filter p).map Prod.fst).Nodup :=
  ((List.filter_sublist m).map Prod.fst).nodup hnd

/-- When every language in `langs` either fails to fetch, or fetches a
tree already absorbed by the current map (`spread2 p t = t` at the
existing entry, or an empty `p` when the language is absent), the fetch
loop only appends inert empty entries for the fetched-but-absent
languages. -/
theorem loadList_eq_append (fetch : String → Option Obj) (langs : List String)
    (c : TransMap) (hnd : langs.Nodup) (hc : (c.map Prod.fst).Nodup)
    (h : ∀ l ∈ langs, ∀ p, fetch l = some p →
        (lookupF c l = none → p = []) ∧
        (∀ t, lookupF c l = some t → spread2 p t = t)) :
    loadList fetch langs c =
      c ++ (langs.filter (fun l => (fetch l).isSome && ! containsKey c l)).map
        (fun l => (l, ([] : Obj))) := by
  induction langs generalizing c with
  | nil => simp [loadList]
  | cons a ls ih =>
      simp only [List.nodup_cons] at hnd
      simp only [loadList, List.foldl_cons]
      rw [show ls.foldl (loadStep fetch) (loadStep fetch c a) =
          loadList fetch ls (loadStep fetch c a) from rfl]
      rcases hf : fetch a with _ | p
      · have hstep : loadStep fetch c a = c := by
          unfold loadStep
          rw [hf]
        rw [hstep]
        rw [List.filter_cons_of_neg (by simp [hf])]
        exact ih c hnd.2 hc fun l hl => h l (List.mem_cons_of_mem a hl)
      · rcases hl : lookupF c a with _ | t
        · have hp : p = [] := ((h a (List.mem_cons_self a ls) p hf).1) hl
          subst hp
          have hcc : containsKey c a = false := by simp [containsKey, hl]
          have hstep : loadStep fetch c a = c ++ [(a, ([] : Obj))] := by
            unfold loadStep
            rw [hf, hl]
            show setKey c a (spread2 [] []) = c ++ [(a, [])]
            unfold setKey
            rw [hcc]
            rfl
          rw [hstep]
          have hka : a ∉ c.map Prod.fst := (lookupF_none_iff c a).mp hl
          have hc' : ((c ++ [(a, ([] : Obj))]).map Prod.fst).Nodup := by
            rw [List.map_append]
            refine List.Nodup.append hc (List.nodup_singleton a) ?_
            intro x hx hx'
            rw [List.mem_singleton.mp hx'] at hx
            exact absurd hx hka
          have hlook : ∀ l ∈ ls, lookupF (c ++ [(a, ([] : Obj))]) l = lookupF c l := by
            intro l hl'
            have hne : l ≠ a := fun heq => hnd.1 (heq ▸ hl')
            rw [lookupF_append]
            rw [show lookupF [(a, ([] : Obj))] l = none by simp [lookupF, Ne.symm hne]]
            exact optionOr_none _
          have h' : ∀ l ∈ ls, ∀ q, fetch l = some q →
              (lookupF (c ++ [(a, ([] : Obj))]) l = none → q = []) ∧
              (∀ t, lookupF (c ++ [(a, ([] : Obj))]) l = some t →
                spread2 q t = t) := by
            intro l hl' q hq
            rw [hlook l hl']
            exact h l (List.mem_cons_of_mem a hl') q hq
          rw [ih (c ++ [(a, ([] : Obj))]) hnd.2 hc' h']
          have hfiltc : ls.filter (fun l =>
                (fetch l).isSome && ! containsKey (c ++ [(a, ([] : Obj))]) l) =
              ls.filter (fun l => (fetch l).isSome && ! containsKey c l) := by
            apply List.filter_congr
            intro l hl'
            have : containsKey (c ++ [(a, ([] : Obj))]) l = containsKey c l := by
              unfold containsKey
              rw [hlook l hl']
            rw [this]
          rw [hfiltc, List.filter_cons_of_pos (by simp [hf, hcc]),
            List.map_cons, List.append_assoc]
          rfl
        · have hsp : spread2 p t = t := ((h a (List.mem_cons_self a ls) p hf).2) t hl
          have hstep : loadStep fetch c a = c := by
            unfold loadStep
            rw [hf, hl]
            show setKey c a (spread2 p t) = c
            rw [hsp]
            exact setKey_eq_self hc hl
          rw [hstep]
          rw [List.filter_cons_of_neg (by simp [hf, containsKey, hl])]
          exact ih c hnd.2 hc fun l hl' => h l (List.mem_cons_of_mem a hl')

theorem lookupF_gcKeep (L : TransMap) (l : String) :
    lookupF (gcKeep L) l = if ! langEmpty L l then lookupF L l else none :=
  lookupF_filter_keyPred L (fun x => ! langEmpty L x) l

theorem gcKeep_some {L : TransMap} {l : String} {t : Obj}
    (h : lookupF (gcKeep L) l = some t) :
    lookupF L l = some t ∧ t.isEmpty = false := by
  rw [lookupF_gcKeep] at h
  split at h
  · rename_i hq
    refine ⟨h, ?_⟩
    simp only [Bool.not_eq_true'] at hq
    unfold langEmpty at hq
    rw [h] at hq
    exact hq
  · exact absurd h (by simp)

theorem langEmpty_of_gcKeep_none {L : TransMap} {l : String}
    (hnone : lookupF (gcKeep L) l = none) (hsome : (lookupF L l).isSome) :
    langEmpty L l = true := by
  rw [lookupF_gcKeep] at hnone
  split at hnone
  · rw [hnone] at hsome
    exact absurd hsome (by simp)
  · rename_i hq
    simp only [Bool.not_eq_true] at hq
    simpa using hq

theorem reconcile_trans (fetch : String → Option Obj) (st : TState) :
    (reconcile fetch st).trans =
      gcKeep (loadList fetch langsToTry st.trans) := by
  simp only [reconcile]
  split <;> rfl

theorem reconcile_meta (fetch : String → Option Obj) (st : TState) :
    (reconcile fetch st).meta =
      gcMeta (loadList fetch langsToTry st.trans) st.meta := by
  simp only [reconcile]
  split <;> rfl

theorem reconcile_lang (fetch : String → Option Obj) (st : TState) :
    (reconcile fetch st).lang = st.lang := by
  simp only [reconcile]
  split <;> rfl

theorem reconcile_keys (fetch : String → Option Obj) (st : TState) :
    (reconcile fetch st).keys = st.keys := by
  simp only [reconcile]
  split <;> rfl

theorem reconcile_storedLang (fetch : String → Option Obj) (st : TState) :
    (reconcile fetch st).storedLang = st.storedLang := by
  simp only [reconcile]
  split <;> rfl

theorem reconcile_storedTrans (fetch : String → Option Obj) (st : TState) :
    (reconcile fetch st).storedTrans =
      if (toRemoveList (loadList fetch langsToTry st.trans)).isEmpty then
        st.storedTrans
      else gcKeep (loadList fetch langsToTry st.trans) := by
  simp only [reconcile]
  split <;> rename_i h <;> simp [h]

theorem reconcile_storedMeta (fetch : String → Option Obj) (st : TState) :
    (reconcile fetch st).storedMeta =
      if (toRemoveList (loadList fetch langsToTry st.trans)).isEmpty then
        st.storedMeta
      else gcMeta (loadList fetch langsToTry st.trans) st.meta := by
  simp only [reconcile]
  split <;> rename_i h <;> simp [h]

theorem tstate_eq {a b : TState} (h1 : a.trans = b.trans)
    (h2 : a.meta = b.meta) (h3 : a.lang = b.lang) (h4 : a.keys = b.keys)
    (h5 : a.storedTrans = b.storedTrans) (h6 : a.storedMeta = b.storedMeta)
    (h7 : a.storedLang = b.storedLang) : a = b := by
  cases a
  cases b
  simp only [TState.mk.injEq]
  exact ⟨h1, h2, h3, h4, h5, h6, h7⟩

/-- The heart of reconcile-idempotence: re-running the fetch loop on an
already garbage-collected load result only re-appends inert empty
entries, so a second garbage collection restores exactly the first
result (for the translations, the metadata, and the
anything-was-removed flag). -/
theorem reconcile_gc_core (fetch : String → Option Obj) (L : TransMap)
    (md1 : MetaMap)
    (hndL : (L.map Prod.fst).Nodup)
    (hf : ∀ l p, fetch l = some p → (p.map Prod.fst).Nodup)
    (hLl : ∀ l ∈ langsToTry, ∀ p, fetch l = some p →
        ∃ o, lookupF L l = some (spread2 p o))
    (hmd1 : ∀ e ∈ md1,
        (! (containsKey L e.1 && langEmpty L e.1)) = true) :
    gcKeep (loadList fetch langsToTry (gcKeep L)) = gcKeep L
      ∧ gcMeta (loadList fetch langsToTry (gcKeep L)) md1 = md1
      ∧ ((toRemoveList L).isEmpty = true →
          (toRemoveList (loadList fetch langsToTry (gcKeep L))).isEmpty =
            true) := by
  set g1 := gcKeep L with hg1def
  set junkLangs :=
    langsToTry.filter (fun l => (fetch l).isSome && ! containsKey g1 l)
    with hjldef
  set junk := junkLangs.map (fun l => (l, ([] : Obj))) with hjdef
  have hndg1 : (g1.map Prod.fst).Nodup := nodup_keys_filter _ _ hndL
  have hmain : ∀ l ∈ langsToTry, ∀ p, fetch l = some p →
      (lookupF g1 l = none → p = []) ∧
      (∀ t, lookupF g1 l = some t → spread2 p t = t) := by
    intro l hl p hp
    obtain ⟨o, ho⟩ := hLl l hl p hp
    constructor
    · intro hnone
      have hE : langEmpty L l = true :=
        langEmpty_of_gcKeep_none (hg1def ▸ hnone) (by simp [ho])
      unfold langEmpty at hE
      rw [ho] at hE
      have hnil : spread2 p o = [] := by simpa using hE
      exact ((spread2_eq_nil_iff p o).mp hnil).1
    · intro t ht
      obtain ⟨hLt, _⟩ := gcKeep_some (hg1def ▸ ht)
      rw [ho] at hLt
      have heq := Option.some.inj hLt
      rw [← heq]
      exact spread2_idem o (hf l p hp)
  have hF4 : loadList fetch langsToTry g1 = g1 ++ junk := by
    rw [hjdef, hjldef]
    exact loadList_eq_append fetch langsToTry g1 (by decide) hndg1 hmain
  have hjunkPred : ∀ l, l ∈ langsToTry →
      ((fetch l).isSome && ! containsKey g1 l) = true →
      langEmpty L l = true ∧ lookupF L l ≠ none ∧ lookupF g1 l = none := by
    intro l hmem hcond
    simp only [Bool.and_eq_true, Bool.not_eq_true'] at hcond
    obtain ⟨p, hp⟩ := Option.isSome_iff_exists.mp hcond.1
    obtain ⟨o, ho⟩ := hLl l hmem p hp
    have hg1none : lookupF g1 l = none := by
      have hcc := hcond.2
      unfold containsKey at hcc
      cases h : lookupF g1 l with
      | none => rfl
      | some w => rw [h] at hcc; simp at hcc
    refine ⟨langEmpty_of_gcKeep_none (hg1def ▸ hg1none) (by simp [ho]),
      by simp [ho], hg1none⟩
  refine ⟨?_, ?_, ?_⟩
  · rw [hF4]
    show (g1 ++ junk).filter (fun e => ! langEmpty (g1 ++ junk) e.1) = g1
    rw [List.filter_append]
    have hA : g1.filter (fun e => ! langEmpty (g1 ++ junk) e.1) = g1 := by
      apply List.filter_eq_self.mpr
      intro e he
      have hc := containsKey_of_mem he
      unfold containsKey at hc
      obtain ⟨t, ht⟩ := Option.isSome_iff_exists.mp hc
      have hends : lookupF (g1 ++ junk) e.1 = some t := by
        rw [lookupF_append, ht]
        rfl
      have hne : t.isEmpty = false := (gcKeep_some (hg1def ▸ ht)).2
      simp [langEmpty, hends, hne]
    have hB : junk.filter (fun e => ! langEmpty (g1 ++ junk) e.1) = [] := by
      apply List.filter_eq_nil_iff.mpr
      intro e he
      rw [hjdef] at he
      obtain ⟨l, hlmem, rfl⟩ := List.mem_map.mp he
      have hml := List.mem_filter.mp (hjldef ▸ hlmem)
      obtain ⟨hE, hLn, hg1n⟩ := hjunkPred l hml.1 hml.2
      have hjl : lookupF junk l = some [] := by
        rw [hjdef, lookupF_constNil_map]
        simp [hlmem]
      have hlook : lookupF (g1 ++ junk) l = some [] := by
        rw [lookupF_append, hg1n, hjl]
        rfl
      simp [langEmpty, hlook]
    rw [hA, hB, List.append_nil]
  · rw [hF4]
    show md1.filter
        (fun e => ! (containsKey (g1 ++ junk) e.1 && langEmpty (g1 ++ junk) e.1))
        = md1
    apply List.filter_eq_self.mpr
    intro e he
    have hp1 := hmd1 e he
    rcases hlg : lookupF g1 e.1 with _ | t
    · by_cases hjm : e.1 ∈ junkLangs
      · exfalso
        have hmm := List.mem_filter.mp (hjldef ▸ hjm)
        obtain ⟨hE, hLn, _⟩ := hjunkPred e.1 hmm.1 hmm.2
        have hcL : containsKey L e.1 = true := by
          unfold containsKey
          cases h : lookupF L e.1 with
          | none => exact absurd h hLn
          | some w => rfl
        rw [hcL, hE] at hp1
        simp at hp1
      · have hjn : lookupF junk e.1 = none := by
          rw [hjdef, lookupF_constNil_map]
          simp [hjm]
        have hlook : lookupF (g1 ++ junk) e.1 = none := by
          rw [lookupF_append, hlg, hjn]
          rfl
        simp [containsKey, hlook]
    · have hlook : lookupF (g1 ++ junk) e.1 = some t := by
        rw [lookupF_append, hlg]
        rfl
      have hne : t.isEmpty = false := (gcKeep_some (hg1def ▸ hlg)).2
      simp [langEmpty, hlook, hne]
  · intro h1
    have h1' : ∀ l ∈ L.map Prod.fst, ¬ (langEmpty L l = true) := by
      have hnil : toRemoveList L = [] := List.isEmpty_iff.mp h1
      unfold toRemoveList at hnil
      intro l hl
      have := List.filter_eq_nil_iff.mp hnil l hl
      simpa using this
    have hjnil : junkLangs = [] := by
      rw [hjldef]
      apply List.filter_eq_nil_iff.mpr
      intro l hl hcond
      obtain ⟨hE, hLn, _⟩ := hjunkPred l hl (by simpa using hcond)
      have hkeys : l ∈ L.map Prod.fst := by
        cases h : lookupF L l with
        | none => exact absurd h hLn
        | some v => exact mem_keys_of_lookupF_some h
      exact h1' l hkeys hE
    rw [hF4, hjdef, hjnil]
    simp only [List.map_nil, List.append_nil]
    have hnil2 : toRemoveList g1 = [] := by
      unfold toRemoveList
      apply List.filter_eq_nil_iff.mpr
      intro l hl
      obtain ⟨t, ht⟩ := lookupF_isSome_of_mem_keys hl
      have hne : t.isEmpty = false := (gcKeep_some (hg1def ▸ ht)).2
      simp [langEmpty, ht, hne]
    rw [hnil2]
    rfl

/-- Claim C7: `reconcile` is idempotent — with the base source unchanged,
running it twice from any well-formed store state (JS objects have unique
keys) yields exactly the same store state as running it once: same
translation layers, same metadata, and same persisted blobs. -/
theorem c7_reconcile_idempotent (fetch : String → Option Obj)
    (hf : ∀ l p, fetch l = some p → (p.map Prod.fst).Nodup)
    (st : TState) (hg : (st.trans.map Prod.fst).Nodup) :
    reconcile fetch (reconcile fetch st) = reconcile fetch st := by
  have hndL := nodup_keys_loadList fetch langsToTry st.trans hg
  have hLl : ∀ l ∈ langsToTry, ∀ p, fetch l = some p →
      ∃ o, lookupF (loadList fetch langsToTry st.trans) l =
        some (spread2 p o) :=
    fun l hl p hp => ⟨(lookupF st.trans l).getD [],
      lookupF_loadList_mem_some fetch langsToTry st.trans l p (by decide)
        hl hp⟩
  have hmd1 : ∀ e ∈ gcMeta (loadList fetch langsToTry st.trans) st.meta,
      (! (containsKey (loadList fetch langsToTry st.trans) e.1 &&
          langEmpty (loadList fetch langsToTry st.trans) e.1)) = true :=
    fun e he => (List.mem_filter.mp he).2
  obtain ⟨hI, hJ, hK⟩ := reconcile_gc_core fetch
    (loadList fetch langsToTry st.trans)
    (gcMeta (loadList fetch langsToTry st.trans) st.meta) hndL hf hLl hmd1
  apply tstate_eq
  · rw [reconcile_trans fetch (reconcile fetch st), reconcile_trans fetch st]
    exact hI
  · rw [reconcile_meta fetch (reconcile fetch st), reconcile_meta fetch st,
      reconcile_trans fetch st]
    exact hJ
  · exact reconcile_lang fetch (reconcile fetch st)
  · exact reconcile_keys fetch (reconcile fetch st)
  · rw [reconcile_storedTrans fetch (reconcile fetch st),
      reconcile_trans fetch st]
    by_cases h2 : (toRemoveList (loadList fetch langsToTry
        (gcKeep (loadList fetch langsToTry st.trans)))).isEmpty = true
    · rw [if_pos h2]
    · rw [if_neg h2, hI, reconcile_storedTrans fetch st]
      have h1 : (toRemoveList (loadList fetch langsToTry st.trans)).isEmpty =
          false := by
        cases hcase : (toRemoveList (loadList fetch langsToTry
            st.trans)).isEmpty
        · rfl
        · exact absurd (hK hcase) h2
      rw [if_neg (by simp [h1])]
  · rw [reconcile_storedMeta fetch (reconcile fetch st),
      reconcile_trans fetch st, reconcile_meta fetch st]
    by_cases h2 : (toRemoveList (loadList fetch langsToTry
        (gcKeep (loadList fetch langsToTry st.trans)))).isEmpty = true
    · rw [if_pos h2]
    · rw [if_neg h2, hJ, reconcile_storedMeta fetch st]
      have h1 : (toRemoveList (loadList fetch langsToTry st.trans)).isEmpty =
          false := by
        cases hcase : (toRemoveList (loadList fetch langsToTry
            st.trans)).isEmpty
        · rfl
        · exact absurd (hK hcase) h2
      rw [if_neg (by simp [h1])]
  · exact reconcile_storedLang fetch (reconcile fetch st)

/-- A store state for the reconcile witness: one stale language with a
tree, one stale empty language. -/
def exStateC7 : TState :=
  { trans := [("de", [("b", TValue.str "y")]), ("zz", [])]
    meta := [("de", [("b", ⟨1, 1, Status.complete⟩)]),
             ("qq", [("k", ⟨2, 2, Status.missing⟩)])]
    lang := "de", keys := []
    storedTrans := [], storedMeta := [], storedLang := "de" }

theorem c7_witness :
    reconcile exFetch (reconcile exFetch exStateC7) =
      reconcile exFetch exStateC7 := by
  apply c7_reconcile_idempotent exFetch ?_ exStateC7 (by decide)
  intro l p h
  unfold exFetch at h
  split at h
  · obtain rfl := Option.some.inj h
    decide
  · exact absurd h (by simp)

/-! ### removeLanguage (claim C8) -/

/-- A two-language store whose state has been persisted (as it is after
any earlier mutation saved to localStorage). -/
def exStateC8 : TState :=
  { trans := [("en", [("a", TValue.str "x")]), ("fr", [("b", TValue.str "y")])]
    meta := [("en", [("a", ⟨5, 1, Status.complete⟩)])]
    lang := "en", keys := []
    storedTrans :=
      [("en", [("a", TValue.str "x")]), ("fr", [("b", TValue.str "y")])]
    storedMeta := [("en", [("a", ⟨5, 1, Status.complete⟩)])]
    storedLang := "en" }

/-- A single-language store. -/
def exOneLang : TState :=
  { trans := [("en", [("a", TValue.str "x")])]
    meta := [], lang := "en", keys := []
    storedTrans := [], storedMeta := [], storedLang := "en" }

/-- Claim C8, as stated, is false on the code: removing the active
language `en` (confirmed) leaves `en` present in the translations —
`setCurrentLang`'s localStorage merge re-adds the freshly deleted
language from the persisted blob — and its Metadata entry is never
deleted (`removeLanguage` touches only `globalTranslations`). -/
theorem c8_counterexample :
    containsKey (removeLanguage exStateC8 "en" true).trans "en" = true
      ∧ lookupF (removeLanguage exStateC8 "en" true).meta "en" =
          some [("a", ⟨5, 1, Status.complete⟩)] :=
  ⟨rfl, rfl⟩

/-- Claim C8 (amended): `removeLanguage(code)` is a refused no-op when at
most one language remains; otherwise (confirmed) it deletes `code` from
the in-memory translations but not from Metadata and persists the result,
and when `code` was the ActiveLanguage it reassigns the ActiveLanguage to
the first remaining language in iteration order (the subsequent persisted
merge inside `setCurrentLang` can re-add `code`'s translations when they
are still persisted). -/
theorem c8_remove_language (st : TState) (code : String) :
    (st.trans.length ≤ 1 → removeLanguage st code true = st)
      ∧ (1 < st.trans.length → st.lang ≠ code →
          removeLanguage st code true =
            { st with
              trans := st.trans.filter (fun e => ! (e.1 == code))
              storedTrans := st.trans.filter (fun e => ! (e.1 == code))
              storedMeta := st.meta })
      ∧ (1 < st.trans.length → st.lang = code → ∀ l0 rest,
          (st.trans.filter (fun e => ! (e.1 == code))).map Prod.fst =
            l0 :: rest →
          (removeLanguage st code true).lang = l0) := by
  refine ⟨?_, ?_, ?_⟩
  · intro h
    unfold removeLanguage
    rw [if_pos h]
  · intro h1 hne
    unfold removeLanguage
    rw [if_neg (by omega)]
    simp only [if_true]
    rw [if_neg hne]
  · intro h1 heq l0 rest hmap
    unfold removeLanguage
    rw [if_neg (by omega)]
    simp only [if_true]
    rw [if_pos heq, hmap]
    rfl

theorem c8_witness :
    removeLanguage exOneLang "en" true = exOneLang
      ∧ removeLanguage exStateC8 "fr" true =
          { exStateC8 with
            trans := exStateC8.trans.filter (fun e => ! (e.1 == "fr"))
            storedTrans := exStateC8.trans.filter (fun e => ! (e.1 == "fr"))
            storedMeta := exStateC8.meta }
      ∧ (removeLanguage exStateC8 "en" true).lang = "fr" :=
  ⟨(c8_remove_language exOneLang "en").1 (by decide),
    (c8_remove_language exStateC8 "fr").2.1 (by decide) (by decide),
    (c8_remove_language exStateC8 "en").2.2 (by decide) rfl "fr" []
      (by decide)⟩

/-! ### Store construction and persisted JSON (claim C9) -/

/-- Claim C9, as stated, is false on the code: the persisted blob `{`
is malformed JSON, and store construction propagates the `JSON.parse`
failure (there is no try/catch) instead of yielding the empty tree. -/
theorem c9_counterexample :
    initStoredBlob (some "\x7b") = none
      ∧ initStoredBlob (some "\x7b") ≠ some (Json.obj []) :=
  ⟨rfl, fun h => Option.noConfusion
    ((show initStoredBlob (some "\x7b") = none from rfl) ▸ h)⟩

/-- Claim C9 (amended): store construction applies `JSON.parse` to the
persisted blob with no error recovery — only a *falsy* blob (absent, or
the persisted empty string) falls back to `'{}'` and hence the empty
tree; any other malformed persisted blob makes the construction throw
outward, and a well-formed one is used as parsed. -/
theorem c9_parse_no_recovery :
    initStoredBlob none = some (Json.obj [])
      ∧ initStoredBlob (some "") = some (Json.obj [])
      ∧ (∀ s, s ≠ "" → jsonParse s = none → initStoredBlob (some s) = none)
      ∧ (∀ s v, jsonParse s = some v → initStoredBlob (some s) = some v) := by
  refine ⟨rfl, rfl, ?_, ?_⟩
  · intro s hs h
    show jsonParse (if s = "" then "\x7b\x7d" else s) = none
    rw [if_neg hs]
    exact h
  · intro s v h
    by_cases hs : s = ""
    · subst hs
      have hn : jsonParse "" = none := rfl
      rw [hn] at h
      exact Option.noConfusion h
    · show jsonParse (if s = "" then "\x7b\x7d" else s) = some v
      rw [if_neg hs]
      exact h

theorem c9_witness :
    initStoredBlob none = some (Json.obj [])
      ∧ initStoredBlob (some "") = some (Json.obj [])
      ∧ initStoredBlob (some "not json") = none :=
  ⟨c9_parse_no_recovery.1, c9_parse_no_recovery.2.1,
    c9_parse_no_recovery.2.2.1 "not json" (by decide) rfl⟩

end TinyLocalize
